import Mathlib

/-!
Verification development for the `roe` Unicode case-mapping crate.

The Rust sources are shallowly embedded: bytes are `Nat` values below 256,
byte slices are `List Nat`, and each streaming iterator is a structure with
an explicit `next` step function.  The fixed 4-byte staging buffer together
with its half-open index range (`next_bytes` / `next_range` in the source)
is modelled as the list of staged bytes `next_bytes[next_range]` that have
not yet been yielded: the source only ever reads the buffer through the
range, writes it only when the range is exhausted, and always resets the
range to `1..len` together with the write, so the pair is captured exactly
by that list.
-/

namespace Roe

/-- Rust `u8::to_ascii_lowercase`: bytes in `b'A'..=b'Z'` gain `0x20`,
every other byte is unchanged. -/
def toAsciiLowercase (b : Nat) : Nat :=
  if 0x41 ≤ b && b ≤ 0x5A then b + 0x20 else b

/-- Rust `u8::to_ascii_uppercase`: bytes in `b'a'..=b'z'` lose `0x20`,
every other byte is unchanged. -/
def toAsciiUppercase (b : Nat) : Nat :=
  if 0x61 ≤ b && b ≤ 0x7A then b - 0x20 else b

/-- Rust `[u8]::is_ascii`: every byte is below `0x80`. -/
def isAsciiSlice (s : List Nat) : Bool :=
  s.all (fun b => b < 0x80)

/-- Rust `char::encode_utf8`: the UTF-8 encoding of a Unicode scalar value,
one to four bytes. -/
def encodeUtf8 (c : Nat) : List Nat :=
  if c < 0x80 then [c]
  else if c < 0x800 then [0xC0 + c / 64, 0x80 + c % 64]
  else if c < 0x10000 then [0xE0 + c / 4096, 0x80 + c / 64 % 64, 0x80 + c % 64]
  else [0xF0 + c / 262144, 0x80 + c / 4096 % 64, 0x80 + c / 64 % 64, 0x80 + c % 64]

/-- UTF-8 continuation byte predicate: `0x80..=0xBF`. -/
def isUtf8Cont (b : Nat) : Bool :=
  0x80 ≤ b && b ≤ 0xBF

/-- Modelled external collaborator `bstr::decode_utf8` (the unit decoder of
spec section 4.2, not code of this repository): decode the first unit of a
byte slice, returning either a valid Unicode scalar value with its encoded
length, or `none` with the length of the maximal invalid subpart (per the
"substitution of maximal subparts" strategy), or length `0` exactly when the
slice is empty. -/
def decodeUtf8 : List Nat → Option Nat × Nat
  | [] => (none, 0)
  | b0 :: rest =>
    if b0 < 0x80 then (some b0, 1)
    else if b0 < 0xC2 then (none, 1)
    else if b0 ≤ 0xDF then
      match rest with
      | [] => (none, 1)
      | b1 :: _ =>
        if isUtf8Cont b1 then (some ((b0 - 0xC0) * 64 + (b1 - 0x80)), 2)
        else (none, 1)
    else if b0 ≤ 0xEF then
      let lo2 := if b0 = 0xE0 then 0xA0 else 0x80
      let hi2 := if b0 = 0xED then 0x9F else 0xBF
      match rest with
      | [] => (none, 1)
      | b1 :: rest1 =>
        if lo2 ≤ b1 && b1 ≤ hi2 then
          match rest1 with
          | [] => (none, 2)
          | b2 :: _ =>
            if isUtf8Cont b2 then
              (some ((b0 - 0xE0) * 4096 + (b1 - 0x80) * 64 + (b2 - 0x80)), 3)
            else (none, 2)
        else (none, 1)
    else if b0 ≤ 0xF4 then
      let lo2 := if b0 = 0xF0 then 0x90 else 0x80
      let hi2 := if b0 = 0xF4 then 0x8F else 0xBF
      match rest with
      | [] => (none, 1)
      | b1 :: rest1 =>
        if lo2 ≤ b1 && b1 ≤ hi2 then
          match rest1 with
          | [] => (none, 2)
          | b2 :: rest2 =>
            if isUtf8Cont b2 then
              match rest2 with
              | [] => (none, 3)
              | b3 :: _ =>
                if isUtf8Cont b3 then
                  (some ((b0 - 0xF0) * 262144 + (b1 - 0x80) * 4096 +
                    (b2 - 0x80) * 64 + (b3 - 0x80)), 4)
                else (none, 3)
            else (none, 2)
        else (none, 1)
    else (none, 1)

/-- Embeds `CaseMappingIter` from `src/unicode/std_case_mapping_iter.rs`
(code extracted from `std::char::CaseMappingIter`): an iterator over the
up-to-three codepoints of a case mapping. -/
inductive CaseMappingIter
  | Three (a b c : Nat)
  | Two (b c : Nat)
  | One (c : Nat)
  | Zero
deriving DecidableEq

/-- Embeds `CaseMappingIter::new`: trailing NUL slots of the fixed
three-slot mapping are sentinels, not emitted. -/
def CaseMappingIter.new (chars : Nat × Nat × Nat) : CaseMappingIter :=
  if chars.2.2 = 0 then
    if chars.2.1 = 0 then CaseMappingIter.One chars.1
    else CaseMappingIter.Two chars.1 chars.2.1
  else CaseMappingIter.Three chars.1 chars.2.1 chars.2.2

/-- Embeds `Iterator::next` for `CaseMappingIter`; the mutated `self` is
returned alongside the yielded item. -/
def CaseMappingIter.next : CaseMappingIter → Option Nat × CaseMappingIter
  | .Three a b c => (some a, .Two b c)
  | .Two b c => (some b, .One c)
  | .One c => (some c, .Zero)
  | .Zero => (none, .Zero)

/-- Number of codepoints the iterator will still yield (the exact value of
its `size_hint` in the source). -/
def CaseMappingIter.size : CaseMappingIter → Nat
  | .Three _ _ _ => 3
  | .Two _ _ => 2
  | .One _ => 1
  | .Zero => 0

/-- The list of codepoints the iterator will yield, in order. -/
def CaseMappingIter.chars : CaseMappingIter → List Nat
  | .Three a b c => [a, b, c]
  | .Two b c => [b, c]
  | .One c => [c]
  | .Zero => []

/-- Modelled external collaborator: Rust `char::to_lowercase`, the standard
per-codepoint Unicode lowercase primitive assumed supplied by the runtime
(spec sections 1 and 4.1; not code of this repository).  The mapping is
given exactly for the codepoints exercised by the theorems below — the
ASCII letters, U+0130 LATIN CAPITAL LETTER I WITH DOT ABOVE (which expands
to two codepoints per SpecialCasing.txt) and U+212A KELVIN SIGN (whose
lowercase is U+006B per UnicodeData.txt) — and is the identity everywhere
else.  Unused trailing slots are 0, as in `CaseMappingIter`. -/
def toLowercaseMapping (c : Nat) : Nat × Nat × Nat :=
  if 0x41 ≤ c && c ≤ 0x5A then (c + 0x20, 0, 0)
  else if c = 0x130 then (0x69, 0x307, 0)
  else if c = 0x212A then (0x6B, 0, 0)
  else (c, 0, 0)

/-- Modelled external collaborator: Rust `char::to_uppercase`, the standard
per-codepoint Unicode uppercase primitive assumed supplied by the runtime
(spec sections 1 and 4.1; not code of this repository).  The mapping is
given exactly for the codepoints exercised by the theorems below — the
ASCII letters and U+00DF LATIN SMALL LETTER SHARP S (which uppercases to
"SS" per SpecialCasing.txt) — and is the identity everywhere else. -/
def toUppercaseMapping (c : Nat) : Nat × Nat × Nat :=
  if 0x61 ≤ c && c ≤ 0x7A then (c - 0x20, 0, 0)
  else if c = 0xDF then (0x53, 0x53, 0)
  else (c, 0, 0)

/-- Modelled from the spec: the sorted codepoint-to-titlecase lookup table
`SORTED_TITLECASE_MAPPING` (re-exported from `generated/case_mapping.rs`,
which is not under `src/`).  Per the spec (section 4.1) and the doctests of
`src/unicode/titlecase.rs`, the table maps a codepoint to up to three
codepoints of its titlecase form (lowercase ASCII letters map to their
capitals, U+00DF maps to "Ss", the digraph U+01C6 maps to U+01C5, and the
ligature ligatures such as U+FB03 map to multi-codepoint expansions like
"Ffi"); only the entries exercised by the theorems below are listed, sorted
by codepoint. -/
def SORTED_TITLECASE_MAPPING : List (Nat × (Nat × Nat × Nat)) :=
  (List.range 26).map (fun i => (0x61 + i, (0x41 + i, 0, 0))) ++
    [(0xDF, (0x53, 0x73, 0)),
     (0x1C6, (0x1C5, 0, 0)),
     (0xFB03, (0x46, 0x66, 0x69)),
     (0xFB04, (0x46, 0x66, 0x6C))]

/-- Embeds `to_titlecase` from `src/unicode/titlecase.rs`: look the
codepoint up in the sorted table (the source's `binary_search_by` over the
sorted table is modelled as a first-match lookup, which agrees with it on
sorted tables) and return the three-slot mapping, or the codepoint itself
padded with NULs when absent.  The source's `char::from_u32(..).unwrap_or`
conversions always succeed on the table's entries, so they are the
identity here. -/
def to_titlecase (c : Nat) : Nat × Nat × Nat :=
  match SORTED_TITLECASE_MAPPING.find? (fun e => e.1 = c) with
  | some e => e.2
  | none => (c, 0, 0)

/-- Embeds `ToTitlecase` from `src/unicode/titlecase.rs`: a newtype over
the case-mapping iterator (the source wraps `core::char::ToLowercase`,
which is itself `CaseMappingIter`). -/
structure ToTitlecase where
  inner : CaseMappingIter
deriving DecidableEq

/-- Embeds the `Titlecase for char` impl: `char::to_titlecase` builds the
iterator from the table lookup. -/
def charToTitlecase (c : Nat) : ToTitlecase :=
  ⟨CaseMappingIter.new (to_titlecase c)⟩

/-- Embeds the private `ToCase` enum of `src/titlecase/full.rs`: either a
`ToLowercase` (a `CaseMappingIter`) or a `ToTitlecase`. -/
inductive ToCase
  | toLowercase (it : CaseMappingIter)
  | toTitlecase (it : ToTitlecase)
deriving DecidableEq

/-- Embeds `Iterator::next` for `ToCase`: delegate to the wrapped
iterator. -/
def ToCase.next : ToCase → Option Nat × ToCase
  | .toLowercase it =>
    match it.next with
    | (c, it') => (c, .toLowercase it')
  | .toTitlecase it =>
    match it.inner.next with
    | (c, it') => (c, .toTitlecase ⟨it'⟩)

/-- The list of codepoints a `ToCase` iterator will yield, in order. -/
def ToCase.chars : ToCase → List Nat
  | .toLowercase it => it.chars
  | .toTitlecase it => it.inner.chars

/-- Number of codepoints a `ToCase` iterator will still yield. -/
def ToCase.size : ToCase → Nat
  | .toLowercase it => it.size
  | .toTitlecase it => it.inner.size

/-- Embeds `Option::as_mut().and_then(Iterator::next)` over a pending
`CaseMappingIter`: an absent iterator yields nothing; a present iterator
is advanced in place and stays present even when exhausted. -/
def caseNextOpt : Option CaseMappingIter → Option Nat × Option CaseMappingIter
  | none => (none, none)
  | some it =>
    match it.next with
    | (c, it') => (c, some it')

/-- Embeds `Option::as_mut().and_then(Iterator::next)` over a pending
`ToCase` iterator. -/
def toCaseNextOpt : Option ToCase → Option Nat × Option ToCase
  | none => (none, none)
  | some it =>
    match it.next with
    | (c, it') => (c, some it')

/-- Generic fuel-indexed driver: repeatedly call an iterator step function
and collect the yielded bytes.  Each iterator instantiates it with a fuel
bound that provably dominates its own step count, so the result is the full
output of the iterator. -/
def collectFuelBy {σ : Type} (nextF : σ → Option Nat × σ) : Nat → σ → List Nat
  | 0, _ => []
  | n + 1, st =>
    match nextF st with
    | (none, _) => []
    | (some b, st') => b :: collectFuelBy nextF n st'

namespace Full

/-- Embeds `Lowercase` from `src/lowercase/full.rs`: the full-Unicode
streaming lowercase iterator.  `staged` models `next_bytes[next_range]`,
the staged output bytes not yet yielded (see the file header);
`lowercase` models the pending `Option<ToLowercase>` multi-codepoint
expansion. -/
structure Lowercase where
  slice : List Nat
  staged : List Nat
  lowercase : Option CaseMappingIter
deriving DecidableEq

/-- Embeds `Lowercase::with_slice`. -/
def Lowercase.withSlice (slice : List Nat) : Lowercase :=
  { slice := slice, staged := [], lowercase := none }

/-- Embeds `Iterator::next` for the full-Unicode `Lowercase` (the mutated
`self` is returned alongside the yielded byte): drain the staged bytes,
else drain the pending expansion, else decode a new unit from the cursor —
a valid codepoint is case-mapped and re-encoded, a maximal invalid run is
copied through verbatim, and an empty cursor ends iteration.  The inner
`(none, _)` arm of the valid-codepoint branch embeds the source's
`.expect("ToLowercase yields at least one char")`, which is unreachable
because `CaseMappingIter::new` always yields a first codepoint. -/
def Lowercase.next (st : Lowercase) : Option Nat × Lowercase :=
  match st.staged with
  | b :: rest => (some b, { st with staged := rest })
  | [] =>
    match caseNextOpt st.lowercase with
    | (some ch, it') =>
      let enc := encodeUtf8 ch
      (some (enc.headD 0), { st with staged := enc.drop 1, lowercase := it' })
    | (none, _) =>
      let st1 := { st with lowercase := none }
      match decodeUtf8 st1.slice with
      | (_, 0) => (none, st1)
      | (some ch, size) =>
        let rest := st1.slice.drop size
        match (CaseMappingIter.new (toLowercaseMapping ch)).next with
        | (some c, it') =>
          let enc := encodeUtf8 c
          (some (enc.headD 0),
            { slice := rest, staged := enc.drop 1, lowercase := some it' })
        | (none, it') =>
          (none, { slice := rest, staged := [], lowercase := some it' })
      | (none, size) =>
        let bytes := st1.slice.take size
        (some (bytes.headD 0),
          { slice := st1.slice.drop size, staged := bytes.drop 1,
            lowercase := none })

/-- Embeds `Iterator::size_hint` for the full-Unicode `Lowercase`:
`(0, Some 0)` on an empty cursor, the exact byte count on a pure-ASCII
cursor, and `(len, Some (len * 3 * 4))` otherwise. -/
def Lowercase.sizeHint (st : Lowercase) : Nat × Option Nat :=
  if st.slice.isEmpty then (0, some 0)
  else if isAsciiSlice st.slice then (st.slice.length, some st.slice.length)
  else (st.slice.length, some (st.slice.length * 3 * 4))

/-- Fuel bound dominating the number of `next` calls the iterator can still
answer with `some`. -/
def Lowercase.fuelBound (st : Lowercase) : Nat :=
  12 * st.slice.length + 4 * (match st.lowercase with
    | none => 0
    | some it => it.size) + st.staged.length

/-- The full output of the iterator: all bytes yielded by repeated `next`
calls until exhaustion (Rust `Iterator::collect`). -/
def Lowercase.collect (st : Lowercase) : List Nat :=
  collectFuelBy Lowercase.next st.fuelBound st

/-- Embeds `Uppercase` from `src/uppercase/full.rs`: the full-Unicode
streaming uppercase iterator, the exact sibling of `Lowercase` with the
uppercase mapping.  `staged` models `next_bytes[next_range]` and
`uppercase` the pending `Option<ToUppercase>` expansion. -/
structure Uppercase where
  slice : List Nat
  staged : List Nat
  uppercase : Option CaseMappingIter
deriving DecidableEq

/-- Embeds `Uppercase::with_slice`. -/
def Uppercase.withSlice (slice : List Nat) : Uppercase :=
  { slice := slice, staged := [], uppercase := none }

/-- Embeds `Iterator::next` for the full-Unicode `Uppercase` (same state
machine as `Lowercase.next` with `char::to_uppercase`). -/
def Uppercase.next (st : Uppercase) : Option Nat × Uppercase :=
  match st.staged with
  | b :: rest => (some b, { st with staged := rest })
  | [] =>
    match caseNextOpt st.uppercase with
    | (some ch, it') =>
      let enc := encodeUtf8 ch
      (some (enc.headD 0), { st with staged := enc.drop 1, uppercase := it' })
    | (none, _) =>
      let st1 := { st with uppercase := none }
      match decodeUtf8 st1.slice with
      | (_, 0) => (none, st1)
      | (some ch, size) =>
        let rest := st1.slice.drop size
        match (CaseMappingIter.new (toUppercaseMapping ch)).next with
        | (some c, it') =>
          let enc := encodeUtf8 c
          (some (enc.headD 0),
            { slice := rest, staged := enc.drop 1, uppercase := some it' })
        | (none, it') =>
          (none, { slice := rest, staged := [], uppercase := some it' })
      | (none, size) =>
        let bytes := st1.slice.take size
        (some (bytes.headD 0),
          { slice := st1.slice.drop size, staged := bytes.drop 1,
            uppercase := none })

/-- Embeds `Iterator::size_hint` for the full-Unicode `Uppercase`. -/
def Uppercase.sizeHint (st : Uppercase) : Nat × Option Nat :=
  if st.slice.isEmpty then (0, some 0)
  else if isAsciiSlice st.slice then (st.slice.length, some st.slice.length)
  else (st.slice.length, some (st.slice.length * 3 * 4))

/-- Fuel bound for `Uppercase`, as for `Lowercase`. -/
def Uppercase.fuelBound (st : Uppercase) : Nat :=
  12 * st.slice.length + 4 * (match st.uppercase with
    | none => 0
    | some it => it.size) + st.staged.length

/-- The full output of the uppercase iterator (`Iterator::collect`). -/
def Uppercase.collect (st : Uppercase) : List Nat :=
  collectFuelBy Uppercase.next st.fuelBound st

/-- Embeds `Titlecase` from `src/titlecase/full.rs`: the full-Unicode
streaming titlecase iterator.  `staged` models `next_bytes[next_range]`,
`case_iter` the pending `Option<ToCase>` expansion, and `beginning` the
one-shot flag that routes the first valid codepoint through the titlecase
mapping. -/
structure Titlecase where
  slice : List Nat
  staged : List Nat
  case_iter : Option ToCase
  beginning : Bool
deriving DecidableEq

/-- Embeds `Titlecase::with_slice`. -/
def Titlecase.withSlice (slice : List Nat) : Titlecase :=
  { slice := slice, staged := [], case_iter := none, beginning := true }

/-- Embeds `Iterator::next` for the full-Unicode `Titlecase`: the same
state machine as `Lowercase.next`, except that a valid codepoint is mapped
with `char::to_titlecase` when `beginning` is still set (clearing it) and
with `char::to_lowercase` afterwards. -/
def Titlecase.next (st : Titlecase) : Option Nat × Titlecase :=
  match st.staged with
  | b :: rest => (some b, { st with staged := rest })
  | [] =>
    match toCaseNextOpt st.case_iter with
    | (some ch, it') =>
      let enc := encodeUtf8 ch
      (some (enc.headD 0), { st with staged := enc.drop 1, case_iter := it' })
    | (none, _) =>
      let st1 := { st with case_iter := none }
      match decodeUtf8 st1.slice with
      | (_, 0) => (none, st1)
      | (some ch, size) =>
        let rest := st1.slice.drop size
        let caseIter := if st1.beginning
          then ToCase.toTitlecase (charToTitlecase ch)
          else ToCase.toLowercase (CaseMappingIter.new (toLowercaseMapping ch))
        let beginning2 := if st1.beginning then false else st1.beginning
        match caseIter.next with
        | (some c, it') =>
          let enc := encodeUtf8 c
          (some (enc.headD 0),
            { slice := rest, staged := enc.drop 1, case_iter := some it',
              beginning := beginning2 })
        | (none, it') =>
          (none,
            { slice := rest, staged := [], case_iter := some it',
              beginning := beginning2 })
      | (none, size) =>
        let bytes := st1.slice.take size
        (some (bytes.headD 0),
          { slice := st1.slice.drop size, staged := bytes.drop 1,
            case_iter := none, beginning := st1.beginning })

/-- Embeds `Iterator::size_hint` for the full-Unicode `Titlecase`. -/
def Titlecase.sizeHint (st : Titlecase) : Nat × Option Nat :=
  if st.slice.isEmpty then (0, some 0)
  else if isAsciiSlice st.slice then (st.slice.length, some st.slice.length)
  else (st.slice.length, some (st.slice.length * 3 * 4))

/-- Fuel bound for `Titlecase`, as for `Lowercase`. -/
def Titlecase.fuelBound (st : Titlecase) : Nat :=
  12 * st.slice.length + 4 * (match st.case_iter with
    | none => 0
    | some it => it.size) + st.staged.length

/-- The full output of the titlecase iterator (`Iterator::collect`). -/
def Titlecase.collect (st : Titlecase) : List Nat :=
  collectFuelBy Titlecase.next st.fuelBound st

end Full

namespace Ascii

/-- Embeds `Lowercase` from `src/lowercase/ascii.rs`: the ASCII fast-path
lowercase iterator, a bare cursor over the slice. -/
structure Lowercase where
  slice : List Nat
deriving DecidableEq

/-- Embeds `Lowercase::with_slice` (ASCII path). -/
def Lowercase.withSlice (slice : List Nat) : Lowercase :=
  ⟨slice⟩

/-- Embeds `Iterator::next` (ASCII lowercase): split off the first byte and
yield its ASCII-lowercased value. -/
def Lowercase.next (st : Lowercase) : Option Nat × Lowercase :=
  match st.slice with
  | [] => (none, st)
  | b :: rest => (some (toAsciiLowercase b), ⟨rest⟩)

/-- Embeds `DoubleEndedIterator::next_back` (ASCII lowercase): split off the
last byte and yield its ASCII-lowercased value. -/
def Lowercase.nextBack (st : Lowercase) : Option Nat × Lowercase :=
  match st.slice.getLast? with
  | none => (none, st)
  | some b => (some (toAsciiLowercase b), ⟨st.slice.dropLast⟩)

/-- Embeds `Iterator::size_hint` (ASCII lowercase): always exact. -/
def Lowercase.sizeHint (st : Lowercase) : Nat × Option Nat :=
  (st.slice.length, some st.slice.length)

/-- Forward `Iterator::collect` for the ASCII lowercase iterator; one byte
is yielded per remaining input byte, so the slice length is enough fuel. -/
def Lowercase.collect (st : Lowercase) : List Nat :=
  collectFuelBy Lowercase.next st.slice.length st

/-- Reverse collection: all bytes yielded by repeated `next_back` calls. -/
def Lowercase.collectBack (st : Lowercase) : List Nat :=
  collectFuelBy Lowercase.nextBack st.slice.length st

/-- Embeds `Uppercase` from `src/uppercase/ascii.rs`: the ASCII fast-path
uppercase iterator. -/
structure Uppercase where
  slice : List Nat
deriving DecidableEq

/-- Embeds `Uppercase::with_slice` (ASCII path). -/
def Uppercase.withSlice (slice : List Nat) : Uppercase :=
  ⟨slice⟩

/-- Embeds `Iterator::next` (ASCII uppercase). -/
def Uppercase.next (st : Uppercase) : Option Nat × Uppercase :=
  match st.slice with
  | [] => (none, st)
  | b :: rest => (some (toAsciiUppercase b), ⟨rest⟩)

/-- Embeds `DoubleEndedIterator::next_back` (ASCII uppercase). -/
def Uppercase.nextBack (st : Uppercase) : Option Nat × Uppercase :=
  match st.slice.getLast? with
  | none => (none, st)
  | some b => (some (toAsciiUppercase b), ⟨st.slice.dropLast⟩)

/-- Embeds `Iterator::size_hint` (ASCII uppercase): always exact. -/
def Uppercase.sizeHint (st : Uppercase) : Nat × Option Nat :=
  (st.slice.length, some st.slice.length)

/-- Forward `Iterator::collect` for the ASCII uppercase iterator. -/
def Uppercase.collect (st : Uppercase) : List Nat :=
  collectFuelBy Uppercase.next st.slice.length st

/-- Reverse collection for the ASCII uppercase iterator. -/
def Uppercase.collectBack (st : Uppercase) : List Nat :=
  collectFuelBy Uppercase.nextBack st.slice.length st

/-- Embeds `Titlecase` from `src/titlecase/ascii.rs`: the ASCII fast-path
titlecase iterator, a cursor plus the one-shot `first` flag. -/
structure Titlecase where
  slice : List Nat
  first : Bool
deriving DecidableEq

/-- Embeds `Titlecase::with_slice` (ASCII path): the flag starts set. -/
def Titlecase.withSlice (slice : List Nat) : Titlecase :=
  ⟨slice, true⟩

/-- Embeds `Iterator::next` (ASCII titlecase): the first yielded byte is
ASCII-uppercased (clearing the flag), all later bytes are
ASCII-lowercased. -/
def Titlecase.next (st : Titlecase) : Option Nat × Titlecase :=
  match st.slice with
  | [] => (none, st)
  | b :: rest =>
    if st.first then (some (toAsciiUppercase b), ⟨rest, false⟩)
    else (some (toAsciiLowercase b), ⟨rest, st.first⟩)

/-- Embeds `DoubleEndedIterator::next_back` (ASCII titlecase): the removed
byte is ASCII-uppercased exactly when the remainder is empty, i.e. when it
was the only byte still in the cursor; the `first` flag is not consulted. -/
def Titlecase.nextBack (st : Titlecase) : Option Nat × Titlecase :=
  match st.slice.getLast? with
  | none => (none, st)
  | some b =>
    let remainder := st.slice.dropLast
    if remainder.isEmpty then (some (toAsciiUppercase b), ⟨remainder, st.first⟩)
    else (some (toAsciiLowercase b), ⟨remainder, st.first⟩)

/-- Embeds `Iterator::size_hint` (ASCII titlecase): always exact. -/
def Titlecase.sizeHint (st : Titlecase) : Nat × Option Nat :=
  (st.slice.length, some st.slice.length)

/-- Forward `Iterator::collect` for the ASCII titlecase iterator. -/
def Titlecase.collect (st : Titlecase) : List Nat :=
  collectFuelBy Titlecase.next st.slice.length st

/-- Reverse collection for the ASCII titlecase iterator. -/
def Titlecase.collectBack (st : Titlecase) : List Nat :=
  collectFuelBy Titlecase.nextBack st.slice.length st

end Ascii

/-- Embeds `LowercaseMode` from `src/lib.rs`. -/
inductive LowercaseMode
  | Full
  | Ascii
  | Turkic
  | Lithuanian
  | Fold
deriving DecidableEq

/-- Embeds `UppercaseMode` from `src/lib.rs` (no `Fold` variant). -/
inductive UppercaseMode
  | Full
  | Ascii
  | Turkic
  | Lithuanian
deriving DecidableEq

/-- Embeds `TitlecaseMode` from `src/lib.rs` (no `Fold` variant). -/
inductive TitlecaseMode
  | Full
  | Ascii
  | Turkic
  | Lithuanian
deriving DecidableEq

/-- Embeds the private `Inner` enum of `src/lowercase.rs`: the tagged union
over the empty, full-Unicode and ASCII concrete lowercase iterators. -/
inductive LowercaseInner
  | empty
  | full (it : Full.Lowercase)
  | ascii (it : Ascii.Lowercase)
deriving DecidableEq

/-- Embeds the public facade `Lowercase` of `src/lowercase.rs`. -/
structure Lowercase where
  iter : LowercaseInner
deriving DecidableEq

/-- Embeds `Lowercase::with_slice` (facade): full Unicode case mapping. -/
def Lowercase.withSlice (slice : List Nat) : Lowercase :=
  ⟨.full (Full.Lowercase.withSlice slice)⟩

/-- Embeds `Lowercase::with_ascii_slice` (facade). -/
def Lowercase.withAsciiSlice (slice : List Nat) : Lowercase :=
  ⟨.ascii (Ascii.Lowercase.withSlice slice)⟩

/-- Embeds the private `Inner` enum of `src/uppercase/mod.rs`. -/
inductive UppercaseInner
  | empty
  | full (it : Full.Uppercase)
  | ascii (it : Ascii.Uppercase)
deriving DecidableEq

/-- Embeds the public facade `Uppercase` of `src/uppercase/mod.rs`. -/
structure Uppercase where
  iter : UppercaseInner
deriving DecidableEq

/-- Embeds `Uppercase::with_slice` (facade). -/
def Uppercase.withSlice (slice : List Nat) : Uppercase :=
  ⟨.full (Full.Uppercase.withSlice slice)⟩

/-- Embeds `Uppercase::with_ascii_slice` (facade). -/
def Uppercase.withAsciiSlice (slice : List Nat) : Uppercase :=
  ⟨.ascii (Ascii.Uppercase.withSlice slice)⟩

/-- Embeds the private `Inner` enum of `src/titlecase.rs`. -/
inductive TitlecaseInner
  | empty
  | full (it : Full.Titlecase)
  | ascii (it : Ascii.Titlecase)
deriving DecidableEq

/-- Embeds the public facade `Titlecase` of `src/titlecase.rs`. -/
structure Titlecase where
  iter : TitlecaseInner
deriving DecidableEq

/-- Embeds `Titlecase::with_slice` (facade). -/
def Titlecase.withSlice (slice : List Nat) : Titlecase :=
  ⟨.full (Full.Titlecase.withSlice slice)⟩

/-- Embeds `Titlecase::with_ascii_slice` (facade). -/
def Titlecase.withAsciiSlice (slice : List Nat) : Titlecase :=
  ⟨.ascii (Ascii.Titlecase.withSlice slice)⟩

/-- Embeds the dispatch function `roe::lowercase` of `src/lib.rs`.  The
source constructs and returns the facade iterator for the implemented
modes and calls `panic!` for `Turkic` and `Fold`; the abort is modelled as
`Except.error` carrying the panic message, so an `error` result means no
iterator is ever constructed and no output byte is produced. -/
def lowercase (slice : List Nat) (options : LowercaseMode) :
    Except String Lowercase :=
  match options with
  | .Full | .Lithuanian => .ok (Lowercase.withSlice slice)
  | .Ascii => .ok (Lowercase.withAsciiSlice slice)
  | .Turkic => .error "lowercase Turkic mode is not yet implemented"
  | .Fold => .error "lowercase case folding mode is not yet implemented"

/-- Embeds the dispatch function `roe::uppercase` of `src/lib.rs`, with the
`Turkic` `panic!` modelled as `Except.error`. -/
def uppercase (slice : List Nat) (options : UppercaseMode) :
    Except String Uppercase :=
  match options with
  | .Full | .Lithuanian => .ok (Uppercase.withSlice slice)
  | .Ascii => .ok (Uppercase.withAsciiSlice slice)
  | .Turkic => .error "uppercase Turkic mode is not yet implemented"

/-- Embeds the dispatch function `roe::titlecase` of `src/lib.rs`, with the
`Turkic` `panic!` modelled as `Except.error`. -/
def titlecase (slice : List Nat) (options : TitlecaseMode) :
    Except String Titlecase :=
  match options with
  | .Full | .Lithuanian => .ok (Titlecase.withSlice slice)
  | .Ascii => .ok (Titlecase.withAsciiSlice slice)
  | .Turkic => .error "titlecase Turkic mode is not yet implemented"

/-- UTF-8 encoding of a codepoint sequence: each codepoint's encoding,
concatenated in order. -/
def encodeAll (cs : List Nat) : List Nat :=
  (cs.map encodeUtf8).join

/-- The codepoints a three-slot case mapping denotes, with trailing NUL
sentinels dropped (the emission order of `CaseMappingIter::new`). -/
def charsOfMapping (m : Nat × Nat × Nat) : List Nat :=
  (CaseMappingIter.new m).chars

/-- Second definition for the titlecase refinement comparison, written from
the spec's words (section 4.5) rather than from `src/titlecase/full.rs`:
walk the input unit by unit; the first successfully decoded valid codepoint
is mapped with the titlecase mapping, every valid codepoint decoded
afterward with the lowercase mapping, and a maximal invalid run is copied
through verbatim without affecting the first-codepoint distinction.  The
fuel argument dominates the number of units (each unit consumes at least
one byte). -/
def titlecasePolicyFuel : Nat → Bool → List Nat → List Nat
  | 0, _, _ => []
  | n + 1, first, s =>
    match decodeUtf8 s with
    | (_, 0) => []
    | (some ch, size) =>
      encodeAll (charsOfMapping
          (if first then to_titlecase ch else toLowercaseMapping ch)) ++
        titlecasePolicyFuel n false (s.drop size)
    | (none, size) => s.take size ++ titlecasePolicyFuel n first (s.drop size)

/-- The spec-side titlecase transformation with enough fuel for the whole
slice. -/
def titlecasePolicyGo (first : Bool) (s : List Nat) : List Nat :=
  titlecasePolicyFuel s.length first s

theorem encodeUtf8_ne_nil (c : Nat) : encodeUtf8 c ≠ [] := by
  unfold encodeUtf8
  split
  · simp
  · split
    · simp
    · split <;> simp

theorem encodeUtf8_length_le (c : Nat) : (encodeUtf8 c).length ≤ 4 := by
  unfold encodeUtf8
  split
  · simp
  · split
    · simp
    · split <;> simp

theorem encodeUtf8_headD_cons (c : Nat) :
    (encodeUtf8 c).headD 0 :: (encodeUtf8 c).drop 1 = encodeUtf8 c := by
  have h := encodeUtf8_ne_nil c
  cases henc : encodeUtf8 c with
  | nil => exact absurd henc h
  | cons b rest => simp

theorem decodeUtf8_nil : decodeUtf8 [] = (none, 0) := rfl

theorem decodeUtf8_cons_pos (b0 : Nat) (rest : List Nat) :
    (decodeUtf8 (b0 :: rest)).2 ≠ 0 := by
  unfold decodeUtf8
  repeat' split
  all_goals first
  | (simp_all; done)
  | (split <;> simp_all)
  | (dsimp only; split <;> simp_all)

theorem decodeUtf8_snd_eq_zero {s : List Nat} (h : (decodeUtf8 s).2 = 0) :
    s = [] := by
  cases s with
  | nil => rfl
  | cons b0 rest => exact absurd h (decodeUtf8_cons_pos b0 rest)

theorem CaseMappingIter.next_some_chars_cmi {it it' : CaseMappingIter} {c : Nat}
    (h : it.next = (some c, it')) : it.chars = c :: it'.chars := by
  cases it <;>
    simp only [CaseMappingIter.next, Prod.mk.injEq, Option.some.injEq,
      reduceCtorEq, false_and] at h <;>
    obtain ⟨rfl, rfl⟩ := h <;> rfl

theorem CaseMappingIter.next_some_size_cmi {it it' : CaseMappingIter} {c : Nat}
    (h : it.next = (some c, it')) : it'.size + 1 = it.size := by
  cases it <;>
    simp only [CaseMappingIter.next, Prod.mk.injEq, Option.some.injEq,
      reduceCtorEq, false_and] at h <;>
    obtain ⟨rfl, rfl⟩ := h <;> rfl

theorem CaseMappingIter.new_next (m : Nat × Nat × Nat) :
    ∃ it', (CaseMappingIter.new m).next = (some m.1, it') ∧ it'.size ≤ 2 := by
  unfold CaseMappingIter.new
  split
  · split
    · exact ⟨.Zero, rfl, by simp [CaseMappingIter.size]⟩
    · exact ⟨.One m.2.1, rfl, by simp [CaseMappingIter.size]⟩
  · exact ⟨.Two m.2.1 m.2.2, rfl, by simp [CaseMappingIter.size]⟩

theorem CaseMappingIter.size_new_le (m : Nat × Nat × Nat) :
    (CaseMappingIter.new m).size ≤ 3 := by
  unfold CaseMappingIter.new
  split
  · split <;> simp [CaseMappingIter.size]
  · simp [CaseMappingIter.size]

theorem ToCase.next_some_chars_tocase {tc tc' : ToCase} {c : Nat}
    (h : tc.next = (some c, tc')) : tc.chars = c :: tc'.chars := by
  cases tc with
  | toLowercase it =>
    cases hit : it.next with
    | mk o it2 =>
      simp only [ToCase.next, hit, Prod.mk.injEq] at h
      obtain ⟨h1, rfl⟩ := h
      cases o with
      | none => simp at h1
      | some c0 =>
        obtain rfl : c0 = c := by simpa using h1
        simpa [ToCase.chars] using CaseMappingIter.next_some_chars_cmi hit
  | toTitlecase it =>
    cases hit : it.inner.next with
    | mk o it2 =>
      simp only [ToCase.next, hit, Prod.mk.injEq] at h
      obtain ⟨h1, rfl⟩ := h
      cases o with
      | none => simp at h1
      | some c0 =>
        obtain rfl : c0 = c := by simpa using h1
        simpa [ToCase.chars] using CaseMappingIter.next_some_chars_cmi hit

theorem ToCase.next_some_size_tocase {tc tc' : ToCase} {c : Nat}
    (h : tc.next = (some c, tc')) : tc'.size + 1 = tc.size := by
  cases tc with
  | toLowercase it =>
    cases hit : it.next with
    | mk o it2 =>
      simp only [ToCase.next, hit, Prod.mk.injEq] at h
      obtain ⟨h1, rfl⟩ := h
      cases o with
      | none => simp at h1
      | some c0 =>
        obtain rfl : c0 = c := by simpa using h1
        simpa [ToCase.size] using CaseMappingIter.next_some_size_cmi hit
  | toTitlecase it =>
    cases hit : it.inner.next with
    | mk o it2 =>
      simp only [ToCase.next, hit, Prod.mk.injEq] at h
      obtain ⟨h1, rfl⟩ := h
      cases o with
      | none => simp at h1
      | some c0 =>
        obtain rfl : c0 = c := by simpa using h1
        simpa [ToCase.size] using CaseMappingIter.next_some_size_cmi hit

theorem collectFuelBy_congr {σ : Type} (nextF : σ → Option Nat × σ)
    (μf : σ → Nat)
    (prog : ∀ st b st', nextF st = (some b, st') → μf st' < μf st) :
    ∀ (n m : Nat) (st : σ), μf st ≤ n → μf st ≤ m →
      collectFuelBy nextF n st = collectFuelBy nextF m st := by
  intro n
  induction n with
  | zero =>
    intro m st hn _
    cases m with
    | zero => rfl
    | succ m' =>
      cases hstep : nextF st with
      | mk o st' =>
        cases o with
        | none => simp [collectFuelBy, hstep]
        | some b =>
          have := prog st b st' hstep
          omega
  | succ n' ih =>
    intro m st hn hm
    cases m with
    | zero =>
      cases hstep : nextF st with
      | mk o st' =>
        cases o with
        | none => simp [collectFuelBy, hstep]
        | some b =>
          have := prog st b st' hstep
          omega
    | succ m' =>
      cases hstep : nextF st with
      | mk o st' =>
        cases o with
        | none => simp [collectFuelBy, hstep]
        | some b =>
          have hlt := prog st b st' hstep
          simp only [collectFuelBy, hstep]
          exact congrArg (b :: ·) (ih m' st' (by omega) (by omega))

namespace Full

theorem Lowercase.next_fuelBound_lower {st st' : Lowercase} {b : Nat}
    (h : st.next = (some b, st')) : st'.fuelBound < st.fuelBound := by
  unfold Lowercase.next at h
  cases hstg : st.staged with
  | cons x rest =>
    rw [hstg] at h
    simp only [Prod.mk.injEq, Option.some.injEq] at h
    obtain ⟨rfl, rfl⟩ := h
    simp [Lowercase.fuelBound, hstg]
  | nil =>
    rw [hstg] at h
    cases hcn : caseNextOpt st.lowercase with
    | mk o itOpt =>
      rw [hcn] at h
      cases o with
      | some ch =>
        simp only [Prod.mk.injEq, Option.some.injEq] at h
        obtain ⟨rfl, rfl⟩ := h
        cases hlc : st.lowercase with
        | none =>
          rw [hlc] at hcn
          simp [caseNextOpt] at hcn
        | some it =>
          rw [hlc] at hcn
          cases hit : it.next with
          | mk o2 it2 =>
            simp only [caseNextOpt, hit, Prod.mk.injEq] at hcn
            obtain ⟨h1, rfl⟩ := hcn
            cases o2 with
            | none => simp at h1
            | some c0 =>
              have hsz := CaseMappingIter.next_some_size_cmi hit
              have henc : (encodeUtf8 ch).length ≤ 4 := encodeUtf8_length_le ch
              simp only [Lowercase.fuelBound, hstg, hlc, List.length_drop,
                List.length_nil]
              omega
      | none =>
        simp only at h
        cases hdec : decodeUtf8 st.slice with
        | mk r size =>
          rw [hdec] at h
          cases size with
          | zero => simp at h
          | succ k =>
            have hne : st.slice ≠ [] := by
              intro hnil
              rw [hnil] at hdec
              simp [decodeUtf8_nil] at hdec
            have hlen : 1 ≤ st.slice.length := by
              cases hs : st.slice with
              | nil => exact absurd hs hne
              | cons a l => simp
            cases r with
            | some ch =>
              simp only at h
              cases hnew : (CaseMappingIter.new (toLowercaseMapping ch)).next with
              | mk o2 it2 =>
                rw [hnew] at h
                cases o2 with
                | none => simp at h
                | some c =>
                  simp only [Prod.mk.injEq, Option.some.injEq] at h
                  obtain ⟨rfl, rfl⟩ := h
                  obtain ⟨it3, hit3, hsz3⟩ :=
                    CaseMappingIter.new_next (toLowercaseMapping ch)
                  rw [hit3] at hnew
                  simp only [Prod.mk.injEq, Option.some.injEq] at hnew
                  obtain ⟨-, rfl⟩ := hnew
                  have henc : (encodeUtf8 c).length ≤ 4 := encodeUtf8_length_le c
                  simp only [Lowercase.fuelBound, hstg, List.length_drop,
                    List.length_nil]
                  omega
            | none =>
              simp only [Prod.mk.injEq, Option.some.injEq] at h
              obtain ⟨rfl, rfl⟩ := h
              simp only [Lowercase.fuelBound, hstg, List.length_drop,
                List.length_nil, List.length_take]
              omega

theorem Lowercase.collect_fuel_lower {n : Nat} {st : Lowercase}
    (h : st.fuelBound ≤ n) :
    collectFuelBy Lowercase.next n st = st.collect :=
  collectFuelBy_congr Lowercase.next Lowercase.fuelBound
    (fun _ _ _ hs => Lowercase.next_fuelBound_lower hs) n st.fuelBound st h le_rfl

theorem Lowercase.collect_next_none_lower {st st' : Lowercase}
    (h : st.next = (none, st')) : st.collect = [] := by
  unfold Lowercase.collect
  cases hfb : st.fuelBound with
  | zero => rfl
  | succ k => simp [collectFuelBy, h]

theorem Lowercase.collect_next_some_lower {st st' : Lowercase} {b : Nat}
    (h : st.next = (some b, st')) : st.collect = b :: st'.collect := by
  have hlt := Lowercase.next_fuelBound_lower h
  unfold Lowercase.collect
  cases hfb : st.fuelBound with
  | zero => omega
  | succ k =>
    simp only [collectFuelBy, h]
    exact congrArg (b :: ·) (Lowercase.collect_fuel_lower (by omega))

theorem Uppercase.next_fuelBound_upper {st st' : Uppercase} {b : Nat}
    (h : st.next = (some b, st')) : st'.fuelBound < st.fuelBound := by
  unfold Uppercase.next at h
  cases hstg : st.staged with
  | cons x rest =>
    rw [hstg] at h
    simp only [Prod.mk.injEq, Option.some.injEq] at h
    obtain ⟨rfl, rfl⟩ := h
    simp [Uppercase.fuelBound, hstg]
  | nil =>
    rw [hstg] at h
    cases hcn : caseNextOpt st.uppercase with
    | mk o itOpt =>
      rw [hcn] at h
      cases o with
      | some ch =>
        simp only [Prod.mk.injEq, Option.some.injEq] at h
        obtain ⟨rfl, rfl⟩ := h
        cases hlc : st.uppercase with
        | none =>
          rw [hlc] at hcn
          simp [caseNextOpt] at hcn
        | some it =>
          rw [hlc] at hcn
          cases hit : it.next with
          | mk o2 it2 =>
            simp only [caseNextOpt, hit, Prod.mk.injEq] at hcn
            obtain ⟨h1, rfl⟩ := hcn
            cases o2 with
            | none => simp at h1
            | some c0 =>
              have hsz := CaseMappingIter.next_some_size_cmi hit
              have henc : (encodeUtf8 ch).length ≤ 4 := encodeUtf8_length_le ch
              simp only [Uppercase.fuelBound, hstg, hlc, List.length_drop,
                List.length_nil]
              omega
      | none =>
        simp only at h
        cases hdec : decodeUtf8 st.slice with
        | mk r size =>
          rw [hdec] at h
          cases size with
          | zero => simp at h
          | succ k =>
            have hne : st.slice ≠ [] := by
              intro hnil
              rw [hnil] at hdec
              simp [decodeUtf8_nil] at hdec
            have hlen : 1 ≤ st.slice.length := by
              cases hs : st.slice with
              | nil => exact absurd hs hne
              | cons a l => simp
            cases r with
            | some ch =>
              simp only at h
              cases hnew : (CaseMappingIter.new (toUppercaseMapping ch)).next with
              | mk o2 it2 =>
                rw [hnew] at h
                cases o2 with
                | none => simp at h
                | some c =>
                  simp only [Prod.mk.injEq, Option.some.injEq] at h
                  obtain ⟨rfl, rfl⟩ := h
                  obtain ⟨it3, hit3, hsz3⟩ :=
                    CaseMappingIter.new_next (toUppercaseMapping ch)
                  rw [hit3] at hnew
                  simp only [Prod.mk.injEq, Option.some.injEq] at hnew
                  obtain ⟨-, rfl⟩ := hnew
                  have henc : (encodeUtf8 c).length ≤ 4 := encodeUtf8_length_le c
                  simp only [Uppercase.fuelBound, hstg, List.length_drop,
                    List.length_nil]
                  omega
            | none =>
              simp only [Prod.mk.injEq, Option.some.injEq] at h
              obtain ⟨rfl, rfl⟩ := h
              simp only [Uppercase.fuelBound, hstg, List.length_drop,
                List.length_nil, List.length_take]
              omega

theorem Uppercase.collect_fuel_upper {n : Nat} {st : Uppercase}
    (h : st.fuelBound ≤ n) :
    collectFuelBy Uppercase.next n st = st.collect :=
  collectFuelBy_congr Uppercase.next Uppercase.fuelBound
    (fun _ _ _ hs => Uppercase.next_fuelBound_upper hs) n st.fuelBound st h le_rfl

theorem Uppercase.collect_next_none_upper {st st' : Uppercase}
    (h : st.next = (none, st')) : st.collect = [] := by
  unfold Uppercase.collect
  cases hfb : st.fuelBound with
  | zero => rfl
  | succ k => simp [collectFuelBy, h]

theorem Uppercase.collect_next_some_upper {st st' : Uppercase} {b : Nat}
    (h : st.next = (some b, st')) : st.collect = b :: st'.collect := by
  have hlt := Uppercase.next_fuelBound_upper h
  unfold Uppercase.collect
  cases hfb : st.fuelBound with
  | zero => omega
  | succ k =>
    simp only [collectFuelBy, h]
    exact congrArg (b :: ·) (Uppercase.collect_fuel_upper (by omega))

theorem ToCase.next_toLowercase_new (m : Nat × Nat × Nat) :
    ∃ it', (ToCase.toLowercase (CaseMappingIter.new m)).next = (some m.1, it') ∧
      it'.size ≤ 2 := by
  obtain ⟨it', hit', hsz⟩ := CaseMappingIter.new_next m
  exact ⟨.toLowercase it', by simp [ToCase.next, hit'], by
    simpa [ToCase.size] using hsz⟩

theorem ToCase.next_toTitlecase_char (c : Nat) :
    ∃ it', (ToCase.toTitlecase (charToTitlecase c)).next =
      (some (to_titlecase c).1, it') ∧ it'.size ≤ 2 := by
  obtain ⟨it', hit', hsz⟩ := CaseMappingIter.new_next (to_titlecase c)
  exact ⟨.toTitlecase ⟨it'⟩, by simp [ToCase.next, charToTitlecase, hit'], by
    simpa [ToCase.size] using hsz⟩

theorem Titlecase.next_fuelBound_title {st st' : Titlecase} {b : Nat}
    (h : st.next = (some b, st')) : st'.fuelBound < st.fuelBound := by
  unfold Titlecase.next at h
  cases hstg : st.staged with
  | cons x rest =>
    rw [hstg] at h
    simp only [Prod.mk.injEq, Option.some.injEq] at h
    obtain ⟨rfl, rfl⟩ := h
    simp [Titlecase.fuelBound, hstg]
  | nil =>
    rw [hstg] at h
    cases hcn : toCaseNextOpt st.case_iter with
    | mk o itOpt =>
      rw [hcn] at h
      cases o with
      | some ch =>
        simp only [Prod.mk.injEq, Option.some.injEq] at h
        obtain ⟨rfl, rfl⟩ := h
        cases hlc : st.case_iter with
        | none =>
          rw [hlc] at hcn
          simp [toCaseNextOpt] at hcn
        | some it =>
          rw [hlc] at hcn
          cases hit : it.next with
          | mk o2 it2 =>
            simp only [toCaseNextOpt, hit, Prod.mk.injEq] at hcn
            obtain ⟨h1, rfl⟩ := hcn
            cases o2 with
            | none => simp at h1
            | some c0 =>
              have hsz := ToCase.next_some_size_tocase hit
              have henc : (encodeUtf8 ch).length ≤ 4 := encodeUtf8_length_le ch
              simp only [Titlecase.fuelBound, hstg, hlc, List.length_drop,
                List.length_nil]
              omega
      | none =>
        simp only at h
        cases hdec : decodeUtf8 st.slice with
        | mk r size =>
          rw [hdec] at h
          cases size with
          | zero => simp at h
          | succ k =>
            have hne : st.slice ≠ [] := by
              intro hnil
              rw [hnil] at hdec
              simp [decodeUtf8_nil] at hdec
            have hlen : 1 ≤ st.slice.length := by
              cases hs : st.slice with
              | nil => exact absurd hs hne
              | cons a l => simp
            cases r with
            | some ch =>
              simp only at h
              cases hbg : st.beginning <;> rw [hbg] at h <;>
                simp only [Bool.false_eq_true, if_true, if_false] at h
              · cases hnew : (ToCase.toLowercase
                    (CaseMappingIter.new (toLowercaseMapping ch))).next with
                | mk o2 it2 =>
                  rw [hnew] at h
                  cases o2 with
                  | none => simp at h
                  | some c =>
                    simp only [Prod.mk.injEq, Option.some.injEq] at h
                    obtain ⟨rfl, rfl⟩ := h
                    obtain ⟨it3, hit3, hsz3⟩ :=
                      ToCase.next_toLowercase_new (toLowercaseMapping ch)
                    rw [hit3] at hnew
                    simp only [Prod.mk.injEq, Option.some.injEq] at hnew
                    obtain ⟨-, rfl⟩ := hnew
                    have henc : (encodeUtf8 c).length ≤ 4 := encodeUtf8_length_le c
                    simp only [Titlecase.fuelBound, hstg, List.length_drop,
                      List.length_nil]
                    omega
              · cases hnew : (ToCase.toTitlecase (charToTitlecase ch)).next with
                | mk o2 it2 =>
                  rw [hnew] at h
                  cases o2 with
                  | none => simp at h
                  | some c =>
                    simp only [Prod.mk.injEq, Option.some.injEq] at h
                    obtain ⟨rfl, rfl⟩ := h
                    obtain ⟨it3, hit3, hsz3⟩ :=
                      ToCase.next_toTitlecase_char ch
                    rw [hit3] at hnew
                    simp only [Prod.mk.injEq, Option.some.injEq] at hnew
                    obtain ⟨-, rfl⟩ := hnew
                    have henc : (encodeUtf8 c).length ≤ 4 := encodeUtf8_length_le c
                    simp only [Titlecase.fuelBound, hstg, List.length_drop,
                      List.length_nil]
                    omega
            | none =>
              simp only [Prod.mk.injEq, Option.some.injEq] at h
              obtain ⟨rfl, rfl⟩ := h
              simp only [Titlecase.fuelBound, hstg, List.length_drop,
                List.length_nil, List.length_take]
              omega

theorem Titlecase.collect_fuel_title {n : Nat} {st : Titlecase}
    (h : st.fuelBound ≤ n) :
    collectFuelBy Titlecase.next n st = st.collect :=
  collectFuelBy_congr Titlecase.next Titlecase.fuelBound
    (fun _ _ _ hs => Titlecase.next_fuelBound_title hs) n st.fuelBound st h le_rfl

theorem Titlecase.collect_next_none_title {st st' : Titlecase}
    (h : st.next = (none, st')) : st.collect = [] := by
  unfold Titlecase.collect
  cases hfb : st.fuelBound with
  | zero => rfl
  | succ k => simp [collectFuelBy, h]

theorem Titlecase.collect_next_some_title {st st' : Titlecase} {b : Nat}
    (h : st.next = (some b, st')) : st.collect = b :: st'.collect := by
  have hlt := Titlecase.next_fuelBound_title h
  unfold Titlecase.collect
  cases hfb : st.fuelBound with
  | zero => omega
  | succ k =>
    simp only [collectFuelBy, h]
    exact congrArg (b :: ·) (Titlecase.collect_fuel_title (by omega))

end Full

namespace Ascii

theorem Lowercase.collect_eq_map_ascii_lower (s : List Nat) :
    (Lowercase.withSlice s).collect = s.map toAsciiLowercase := by
  induction s with
  | nil => rfl
  | cons b rest ih =>
    simpa [Lowercase.collect, Lowercase.withSlice, collectFuelBy,
      Lowercase.next] using ih

theorem Lowercase.collectBack_eq_map_ascii_lower (s : List Nat) :
    (Lowercase.withSlice s).collectBack = s.reverse.map toAsciiLowercase := by
  induction s using List.reverseRecOn with
  | nil => rfl
  | append_singleton init b ih =>
    simp only [Lowercase.collectBack, Lowercase.withSlice, List.length_append,
      List.length_singleton, collectFuelBy, Lowercase.nextBack,
      List.getLast?_concat, List.dropLast_concat, List.reverse_append,
      List.reverse_singleton, List.map_cons, List.singleton_append]
    exact congrArg (toAsciiLowercase b :: ·) ih

theorem Uppercase.collect_eq_map_ascii_upper (s : List Nat) :
    (Uppercase.withSlice s).collect = s.map toAsciiUppercase := by
  induction s with
  | nil => rfl
  | cons b rest ih =>
    simpa [Uppercase.collect, Uppercase.withSlice, collectFuelBy,
      Uppercase.next] using ih

theorem Uppercase.collectBack_eq_map_ascii_upper (s : List Nat) :
    (Uppercase.withSlice s).collectBack = s.reverse.map toAsciiUppercase := by
  induction s using List.reverseRecOn with
  | nil => rfl
  | append_singleton init b ih =>
    simp only [Uppercase.collectBack, Uppercase.withSlice, List.length_append,
      List.length_singleton, collectFuelBy, Uppercase.nextBack,
      List.getLast?_concat, List.dropLast_concat, List.reverse_append,
      List.reverse_singleton, List.map_cons, List.singleton_append]
    exact congrArg (toAsciiUppercase b :: ·) ih

theorem Titlecase.collect_length (s : List Nat) (first : Bool) :
    (collectFuelBy Titlecase.next s.length ⟨s, first⟩).length = s.length := by
  induction s generalizing first with
  | nil => rfl
  | cons b rest ih =>
    cases first <;>
      simp [collectFuelBy, Titlecase.next, ih]

theorem Titlecase.collectBack_length (s : List Nat) (first : Bool) :
    (collectFuelBy Titlecase.nextBack s.length ⟨s, first⟩).length = s.length := by
  induction s using List.reverseRecOn generalizing first with
  | nil => rfl
  | append_singleton init b ih =>
    simp only [List.length_append, List.length_singleton, collectFuelBy,
      Titlecase.nextBack, List.getLast?_concat, List.dropLast_concat]
    cases hinit : init.isEmpty with
    | false =>
      simp only [hinit, Bool.false_eq_true, if_false, List.length_cons, ih first]
    | true =>
      obtain rfl : init = [] := List.isEmpty_iff.mp hinit
      simp [collectFuelBy]

end Ascii

theorem List.headD_cons_drop {l : List Nat} (h : l ≠ []) :
    l.headD 0 :: l.drop 1 = l := by
  cases l with
  | nil => exact absurd rfl h
  | cons b rest => rfl

theorem take_succ_ne_nil {s : List Nat} {k : Nat} (h : s ≠ []) :
    s.take (k + 1) ≠ [] := by
  cases s with
  | nil => exact absurd rfl h
  | cons b rest => simp

theorem titlecasePolicyFuel_congr :
    ∀ (n m : Nat) (first : Bool) (s : List Nat), s.length ≤ n → s.length ≤ m →
      titlecasePolicyFuel n first s = titlecasePolicyFuel m first s := by
  intro n
  induction n with
  | zero =>
    intro m first s hn _
    obtain rfl : s = [] := List.length_eq_zero.mp (Nat.le_zero.mp hn)
    cases m with
    | zero => rfl
    | succ m' => simp [titlecasePolicyFuel, decodeUtf8_nil]
  | succ n' ih =>
    intro m first s hn hm
    cases m with
    | zero =>
      obtain rfl : s = [] := List.length_eq_zero.mp (Nat.le_zero.mp hm)
      simp [titlecasePolicyFuel, decodeUtf8_nil]
    | succ m' =>
      cases hdec : decodeUtf8 s with
      | mk r size =>
        cases size with
        | zero => simp [titlecasePolicyFuel, hdec]
        | succ k =>
          have hne : s ≠ [] := by
            intro hnil
            rw [hnil, decodeUtf8_nil] at hdec
            simp at hdec
          have hlen : 1 ≤ s.length := by
            cases hs : s with
            | nil => exact absurd hs hne
            | cons a l => simp
          have hdrop : (s.drop (k + 1)).length ≤ n' ∧
              (s.drop (k + 1)).length ≤ m' := by
            rw [List.length_drop]
            omega
          cases r with
          | some ch =>
            simp only [titlecasePolicyFuel, hdec]
            exact congrArg _ (ih m' false _ hdrop.1 hdrop.2)
          | none =>
            simp only [titlecasePolicyFuel, hdec]
            exact congrArg _ (ih m' first _ hdrop.1 hdrop.2)

theorem titlecasePolicyGo_zero {s : List Nat} {r : Option Nat}
    (h : decodeUtf8 s = (r, 0)) (first : Bool) :
    titlecasePolicyGo first s = [] := by
  unfold titlecasePolicyGo
  cases hs : s.length with
  | zero => rfl
  | succ m => simp [titlecasePolicyFuel, h]

theorem titlecasePolicyGo_valid {s : List Nat} {ch k : Nat}
    (h : decodeUtf8 s = (some ch, k + 1)) (first : Bool) :
    titlecasePolicyGo first s =
      encodeAll (charsOfMapping
          (if first then to_titlecase ch else toLowercaseMapping ch)) ++
        titlecasePolicyGo false (s.drop (k + 1)) := by
  have hne : s ≠ [] := by
    intro hnil
    rw [hnil, decodeUtf8_nil] at h
    simp at h
  unfold titlecasePolicyGo
  cases hs : s.length with
  | zero => exact absurd (List.length_eq_zero.mp hs) hne
  | succ m =>
    simp only [titlecasePolicyFuel, h]
    refine congrArg _ (titlecasePolicyFuel_congr m _ false _ ?_ le_rfl)
    rw [List.length_drop]
    omega

theorem titlecasePolicyGo_invalid {s : List Nat} {k : Nat}
    (h : decodeUtf8 s = (none, k + 1)) (first : Bool) :
    titlecasePolicyGo first s =
      s.take (k + 1) ++ titlecasePolicyGo first (s.drop (k + 1)) := by
  have hne : s ≠ [] := by
    intro hnil
    rw [hnil, decodeUtf8_nil] at h
    simp at h
  unfold titlecasePolicyGo
  cases hs : s.length with
  | zero => exact absurd (List.length_eq_zero.mp hs) hne
  | succ m =>
    simp only [titlecasePolicyFuel, h]
    refine congrArg _ (titlecasePolicyFuel_congr m _ first _ ?_ le_rfl)
    rw [List.length_drop]
    omega

theorem toAsciiUppercase_idem (b : Nat) :
    toAsciiUppercase (toAsciiUppercase b) = toAsciiUppercase b := by
  unfold toAsciiUppercase
  split <;> rename_i h <;> simp only [Bool.and_eq_true, decide_eq_true_eq] at h
  · rw [if_neg]
    simp only [Bool.and_eq_true, decide_eq_true_eq, not_and]
    omega
  · rfl

theorem ToCase.next_none_chars {tc tc2 : ToCase} (h : tc.next = (none, tc2)) :
    tc.chars = [] := by
  cases tc with
  | toLowercase it =>
    cases it <;>
      simp_all [ToCase.next, CaseMappingIter.next, ToCase.chars,
        CaseMappingIter.chars]
  | toTitlecase it =>
    obtain ⟨inner⟩ := it
    cases inner <;>
      simp_all [ToCase.next, CaseMappingIter.next, ToCase.chars,
        CaseMappingIter.chars]

namespace Full

theorem Lowercase.collect_staged_lower (staged slice : List Nat)
    (lc : Option CaseMappingIter) :
    Lowercase.collect ⟨slice, staged, lc⟩ =
      staged ++ Lowercase.collect ⟨slice, [], lc⟩ := by
  induction staged with
  | nil => rfl
  | cons x rest ih =>
    have hstep : Lowercase.next ⟨slice, x :: rest, lc⟩ =
        (some x, ⟨slice, rest, lc⟩) := rfl
    rw [Lowercase.collect_next_some_lower hstep, ih]
    rfl

theorem Lowercase.next_decode_invalid_lower {s : List Nat} {k : Nat}
    (h : decodeUtf8 s = (none, k + 1)) :
    Lowercase.next ⟨s, [], none⟩ =
      (some ((s.take (k + 1)).headD 0),
        ⟨s.drop (k + 1), (s.take (k + 1)).drop 1, none⟩) := by
  unfold Lowercase.next
  simp [caseNextOpt, h]

theorem Lowercase.next_decode_zero_lower {s : List Nat} {r : Option Nat}
    (h : decodeUtf8 s = (r, 0)) :
    Lowercase.next ⟨s, [], none⟩ = (none, ⟨s, [], none⟩) := by
  unfold Lowercase.next
  simp [caseNextOpt, h]

theorem Lowercase.collect_invalid_unit {s : List Nat} {k : Nat}
    (h : decodeUtf8 s = (none, k + 1)) :
    Lowercase.collect ⟨s, [], none⟩ =
      s.take (k + 1) ++ Lowercase.collect ⟨s.drop (k + 1), [], none⟩ := by
  have hne : s ≠ [] := by
    intro hnil
    rw [hnil, decodeUtf8_nil] at h
    simp at h
  rw [Lowercase.collect_next_some_lower (Lowercase.next_decode_invalid_lower h),
    Lowercase.collect_staged_lower]
  rw [← List.cons_append,
    List.headD_cons_drop (take_succ_ne_nil hne)]

theorem Titlecase.collect_staged_title (staged slice : List Nat)
    (ci : Option ToCase) (bg : Bool) :
    Titlecase.collect ⟨slice, staged, ci, bg⟩ =
      staged ++ Titlecase.collect ⟨slice, [], ci, bg⟩ := by
  induction staged with
  | nil => rfl
  | cons x rest ih =>
    have hstep : Titlecase.next ⟨slice, x :: rest, ci, bg⟩ =
        (some x, ⟨slice, rest, ci, bg⟩) := rfl
    rw [Titlecase.collect_next_some_title hstep, ih]
    rfl

theorem Titlecase.collect_congr_next {st1 st2 : Titlecase}
    (h : Titlecase.next st1 = Titlecase.next st2) :
    st1.collect = st2.collect := by
  cases hn : Titlecase.next st1 with
  | mk o st' =>
    cases o with
    | none =>
      rw [Titlecase.collect_next_none_title hn,
        Titlecase.collect_next_none_title (h.symm.trans hn)]
    | some b =>
      rw [Titlecase.collect_next_some_title hn,
        Titlecase.collect_next_some_title (h.symm.trans hn)]

theorem Titlecase.next_pending_exhausted {it it2 : ToCase}
    (h : it.next = (none, it2)) (slice : List Nat) (bg : Bool) :
    Titlecase.next ⟨slice, [], some it, bg⟩ =
      Titlecase.next ⟨slice, [], none, bg⟩ := by
  unfold Titlecase.next
  simp [toCaseNextOpt, h]

theorem Titlecase.next_pending_some {it it2 : ToCase} {c : Nat}
    (h : it.next = (some c, it2)) (slice : List Nat) (bg : Bool) :
    Titlecase.next ⟨slice, [], some it, bg⟩ =
      (some ((encodeUtf8 c).headD 0),
        ⟨slice, (encodeUtf8 c).drop 1, some it2, bg⟩) := by
  unfold Titlecase.next
  simp [toCaseNextOpt, h]

theorem Titlecase.collect_pending :
    ∀ (n : Nat) (it : ToCase), it.size ≤ n → ∀ (slice : List Nat) (bg : Bool),
      Titlecase.collect ⟨slice, [], some it, bg⟩ =
        encodeAll it.chars ++ Titlecase.collect ⟨slice, [], none, bg⟩ := by
  intro n
  induction n with
  | zero =>
    intro it hsz slice bg
    cases hnext : it.next with
    | mk o it2 =>
      cases o with
      | none =>
        rw [ToCase.next_none_chars hnext]
        exact Titlecase.collect_congr_next
          (Titlecase.next_pending_exhausted hnext slice bg)
      | some c =>
        have := ToCase.next_some_size_tocase hnext
        omega
  | succ n' ih =>
    intro it hsz slice bg
    cases hnext : it.next with
    | mk o it2 =>
      cases o with
      | none =>
        rw [ToCase.next_none_chars hnext]
        exact Titlecase.collect_congr_next
          (Titlecase.next_pending_exhausted hnext slice bg)
      | some c =>
        have hsz2 := ToCase.next_some_size_tocase hnext
        rw [Titlecase.collect_next_some_title
            (Titlecase.next_pending_some hnext slice bg),
          Titlecase.collect_staged_title, ih it2 (by omega) slice bg,
          ToCase.next_some_chars_tocase hnext]
        cases he : encodeUtf8 c with
        | nil => exact absurd he (encodeUtf8_ne_nil c)
        | cons b0 brest => simp [he, encodeAll, List.append_assoc]

theorem Titlecase.next_decode_zero_title {s : List Nat} {r : Option Nat}
    (h : decodeUtf8 s = (r, 0)) (bg : Bool) :
    Titlecase.next ⟨s, [], none, bg⟩ = (none, ⟨s, [], none, bg⟩) := by
  unfold Titlecase.next
  simp [toCaseNextOpt, h]

theorem Titlecase.next_decode_invalid_title {s : List Nat} {k : Nat}
    (h : decodeUtf8 s = (none, k + 1)) (bg : Bool) :
    Titlecase.next ⟨s, [], none, bg⟩ =
      (some ((s.take (k + 1)).headD 0),
        ⟨s.drop (k + 1), (s.take (k + 1)).drop 1, none, bg⟩) := by
  unfold Titlecase.next
  simp [toCaseNextOpt, h]

theorem Titlecase.next_decode_valid {s : List Nat} {ch k : Nat}
    (h : decodeUtf8 s = (some ch, k + 1)) (bg : Bool) {c : Nat} {it2 : ToCase}
    (hnext : (if bg then ToCase.toTitlecase (charToTitlecase ch)
        else ToCase.toLowercase
          (CaseMappingIter.new (toLowercaseMapping ch))).next = (some c, it2)) :
    Titlecase.next ⟨s, [], none, bg⟩ =
      (some ((encodeUtf8 c).headD 0),
        ⟨s.drop (k + 1), (encodeUtf8 c).drop 1, some it2, false⟩) := by
  unfold Titlecase.next
  cases bg <;> simp_all [toCaseNextOpt]

theorem Titlecase.collect_policy_aux :
    ∀ (n : Nat) (s : List Nat), s.length ≤ n → ∀ (bg : Bool),
      Titlecase.collect ⟨s, [], none, bg⟩ = titlecasePolicyGo bg s := by
  intro n
  induction n with
  | zero =>
    intro s hs bg
    obtain rfl : s = [] := List.length_eq_zero.mp (Nat.le_zero.mp hs)
    rw [Titlecase.collect_next_none_title (Titlecase.next_decode_zero_title decodeUtf8_nil bg),
      titlecasePolicyGo_zero decodeUtf8_nil]
  | succ n' ih =>
    intro s hs bg
    cases hdec : decodeUtf8 s with
    | mk r size =>
      cases size with
      | zero =>
        rw [Titlecase.collect_next_none_title (Titlecase.next_decode_zero_title hdec bg),
          titlecasePolicyGo_zero hdec]
      | succ k =>
        have hne : s ≠ [] := by
          intro hnil
          rw [hnil, decodeUtf8_nil] at hdec
          simp at hdec
        have hlen : 1 ≤ s.length := by
          cases hq : s with
          | nil => exact absurd hq hne
          | cons a l => simp
        have hdrop : (s.drop (k + 1)).length ≤ n' := by
          rw [List.length_drop]
          omega
        cases r with
        | none =>
          rw [Titlecase.collect_next_some_title (Titlecase.next_decode_invalid_title hdec bg),
            Titlecase.collect_staged_title, ih _ hdrop bg,
            titlecasePolicyGo_invalid hdec bg, ← List.cons_append,
            List.headD_cons_drop (take_succ_ne_nil hne)]
        | some ch =>
          cases bg with
          | true =>
            obtain ⟨it3, hit3, hsz3⟩ := ToCase.next_toTitlecase_char ch
            rw [Titlecase.collect_next_some_title
                (Titlecase.next_decode_valid hdec true (by simpa using hit3)),
              Titlecase.collect_staged_title,
              Titlecase.collect_pending _ it3 le_rfl _ false, ih _ hdrop false,
              titlecasePolicyGo_valid hdec true]
            have hch : charsOfMapping (to_titlecase ch) =
                (to_titlecase ch).1 :: it3.chars := by
              have := ToCase.next_some_chars_tocase hit3
              simpa [ToCase.chars, charToTitlecase, charsOfMapping] using this
            cases he : encodeUtf8 (to_titlecase ch).1 with
            | nil => exact absurd he (encodeUtf8_ne_nil _)
            | cons b0 brest =>
              simp [he, hch, encodeAll, List.append_assoc]
          | false =>
            obtain ⟨it3, hit3, hsz3⟩ :=
              ToCase.next_toLowercase_new (toLowercaseMapping ch)
            rw [Titlecase.collect_next_some_title
                (Titlecase.next_decode_valid hdec false (by simpa using hit3)),
              Titlecase.collect_staged_title,
              Titlecase.collect_pending _ it3 le_rfl _ false, ih _ hdrop false,
              titlecasePolicyGo_valid hdec false]
            have hch : charsOfMapping (toLowercaseMapping ch) =
                (toLowercaseMapping ch).1 :: it3.chars := by
              have := ToCase.next_some_chars_tocase hit3
              simpa [ToCase.chars, charsOfMapping] using this
            cases he : encodeUtf8 (toLowercaseMapping ch).1 with
            | nil => exact absurd he (encodeUtf8_ne_nil _)
            | cons b0 brest =>
              simp [he, hch, encodeAll, List.append_assoc]

theorem Lowercase.fused_lower {st st' : Lowercase}
    (h : st.next = (none, st')) : st'.next = (none, st') := by
  unfold Lowercase.next at h
  cases hstg : st.staged with
  | cons x rest =>
    rw [hstg] at h
    simp at h
  | nil =>
    rw [hstg] at h
    cases hcn : caseNextOpt st.lowercase with
    | mk o itOpt =>
      rw [hcn] at h
      cases o with
      | some ch => simp at h
      | none =>
        simp only at h
        cases hdec : decodeUtf8 st.slice with
        | mk r size =>
          rw [hdec] at h
          cases size with
          | zero =>
            simp only [Prod.mk.injEq] at h
            obtain ⟨-, rfl⟩ := h
            unfold Lowercase.next
            simp [hstg, caseNextOpt, hdec]
          | succ k =>
            cases r with
            | some ch =>
              simp only at h
              obtain ⟨it3, hit3, -⟩ :=
                CaseMappingIter.new_next (toLowercaseMapping ch)
              rw [hit3] at h
              simp at h
            | none => simp at h

theorem Uppercase.fused_upper {st st' : Uppercase}
    (h : st.next = (none, st')) : st'.next = (none, st') := by
  unfold Uppercase.next at h
  cases hstg : st.staged with
  | cons x rest =>
    rw [hstg] at h
    simp at h
  | nil =>
    rw [hstg] at h
    cases hcn : caseNextOpt st.uppercase with
    | mk o itOpt =>
      rw [hcn] at h
      cases o with
      | some ch => simp at h
      | none =>
        simp only at h
        cases hdec : decodeUtf8 st.slice with
        | mk r size =>
          rw [hdec] at h
          cases size with
          | zero =>
            simp only [Prod.mk.injEq] at h
            obtain ⟨-, rfl⟩ := h
            unfold Uppercase.next
            simp [hstg, caseNextOpt, hdec]
          | succ k =>
            cases r with
            | some ch =>
              simp only at h
              obtain ⟨it3, hit3, -⟩ :=
                CaseMappingIter.new_next (toUppercaseMapping ch)
              rw [hit3] at h
              simp at h
            | none => simp at h

theorem Titlecase.fused_title {st st' : Titlecase}
    (h : st.next = (none, st')) : st'.next = (none, st') := by
  unfold Titlecase.next at h
  cases hstg : st.staged with
  | cons x rest =>
    rw [hstg] at h
    simp at h
  | nil =>
    rw [hstg] at h
    cases hcn : toCaseNextOpt st.case_iter with
    | mk o itOpt =>
      rw [hcn] at h
      cases o with
      | some ch => simp at h
      | none =>
        simp only at h
        cases hdec : decodeUtf8 st.slice with
        | mk r size =>
          rw [hdec] at h
          cases size with
          | zero =>
            simp only [Prod.mk.injEq] at h
            obtain ⟨-, rfl⟩ := h
            unfold Titlecase.next
            simp [hstg, toCaseNextOpt, hdec]
          | succ k =>
            cases r with
            | some ch =>
              simp only at h
              cases hbg : st.beginning <;> rw [hbg] at h <;>
                simp only [Bool.false_eq_true, if_true, if_false] at h
              · obtain ⟨it3, hit3, -⟩ :=
                  ToCase.next_toLowercase_new (toLowercaseMapping ch)
                rw [hit3] at h
                simp at h
              · obtain ⟨it3, hit3, -⟩ := ToCase.next_toTitlecase_char ch
                rw [hit3] at h
                simp at h
            | none => simp at h

theorem Lowercase.next_none_iff_exhausted (st : Lowercase) :
    (st.next).1 = none ↔
      st.slice = [] ∧ st.staged = [] ∧ (caseNextOpt st.lowercase).1 = none := by
  constructor
  · intro h
    unfold Lowercase.next at h
    cases hstg : st.staged with
    | cons x rest =>
      rw [hstg] at h
      simp at h
    | nil =>
      rw [hstg] at h
      cases hcn : caseNextOpt st.lowercase with
      | mk o itOpt =>
        rw [hcn] at h
        cases o with
        | some ch => simp at h
        | none =>
          refine ⟨?_, rfl, rfl⟩
          simp only at h
          cases hdec : decodeUtf8 st.slice with
          | mk r size =>
            rw [hdec] at h
            cases size with
            | zero => exact decodeUtf8_snd_eq_zero (by rw [hdec])
            | succ k =>
              cases r with
              | some ch =>
                simp only at h
                obtain ⟨it3, hit3, -⟩ :=
                  CaseMappingIter.new_next (toLowercaseMapping ch)
                rw [hit3] at h
                simp at h
              | none => simp at h
  · rintro ⟨hs, hstg, hcn⟩
    unfold Lowercase.next
    rw [hstg]
    cases hcn2 : caseNextOpt st.lowercase with
    | mk o itOpt =>
      cases o with
      | some ch =>
        rw [hcn2] at hcn
        simp at hcn
      | none => simp [hs, decodeUtf8_nil]

end Full

/-- C1: the claim states `size_hint` soundness — for every slice and mode,
`lower_bound ≤ actual_count ≤ upper_bound` — justified by "every input byte
yields at least one output byte".  The code violates the lower bound: the
full-Unicode lowercase iterator over U+212A KELVIN SIGN (bytes
`E2 84 AA`) reports `(3, Some 36)` at construction, yet full consumption
yields the single byte `k` (the Unicode lowercase of U+212A is U+006B,
shrinking three input bytes to one output byte), so `lower_bound = 3 >
actual_count = 1`. -/
theorem claim_C1 :
    (Full.Lowercase.withSlice [0xE2, 0x84, 0xAA]).sizeHint = (3, some 36) ∧
    (Full.Lowercase.withSlice [0xE2, 0x84, 0xAA]).collect = [0x6B] ∧
    ¬ ((Full.Lowercase.withSlice [0xE2, 0x84, 0xAA]).sizeHint.1 ≤
        (Full.Lowercase.withSlice [0xE2, 0x84, 0xAA]).collect.length) := by
  decide

/-- C2: the full-Unicode lowercase iterator passes every maximal invalid
byte run through verbatim and never case-maps it — whenever the unit
decoder reports an invalid run of length `n` at the front of the cursor,
the output is exactly those `n` raw bytes followed by the output for the
rest of the slice — and on `"ABC" ++ FF FE ++ "XYZ"` the result is exactly
`"abc" ++ FF FE ++ "xyz"`, with the valid ASCII on both sides of the
invalid run case-mapped. -/
theorem claim_C2 :
    (∀ (s : List Nat) (n : Nat), decodeUtf8 s = (none, n) →
      (Full.Lowercase.withSlice s).collect =
        s.take n ++ (Full.Lowercase.withSlice (s.drop n)).collect) ∧
    (Full.Lowercase.withSlice
        [0x41, 0x42, 0x43, 0xFF, 0xFE, 0x58, 0x59, 0x5A]).collect =
      [0x61, 0x62, 0x63, 0xFF, 0xFE, 0x78, 0x79, 0x7A] := by
  constructor
  · intro s n hdec
    cases n with
    | zero =>
      obtain rfl : s = [] := decodeUtf8_snd_eq_zero (by rw [hdec])
      simp
    | succ k =>
      simpa [Full.Lowercase.withSlice] using
        Full.Lowercase.collect_invalid_unit hdec
  · decide

/-- Witness for C2: at the concrete slice `FF FE` the decoder reports a
maximal invalid run of length 1, and the claim's pass-through equation
holds there. -/
theorem claim_C2_witness :
    (Full.Lowercase.withSlice [0xFF, 0xFE]).collect =
      [0xFF, 0xFE].take 1 ++
        (Full.Lowercase.withSlice ([0xFF, 0xFE].drop 1)).collect :=
  claim_C2.1 [0xFF, 0xFE] 1 (by decide)

/-- C3: uppercasing U+00DF (ß, bytes `C3 9F`) in Full mode yields exactly
the two bytes `SS`: the first `next` call decodes the single codepoint,
stores the pending two-codepoint expansion and yields the first `S`; the
second `next` call streams the second `S` out of the pending expansion; the
third call reports exhaustion. -/
theorem claim_C3 :
    (Full.Uppercase.withSlice [0xC3, 0x9F]).collect = [0x53, 0x53] ∧
    (Full.Uppercase.withSlice [0xC3, 0x9F]).next =
      (some 0x53,
        { slice := [], staged := [],
          uppercase := some (CaseMappingIter.One 0x53) }) ∧
    Full.Uppercase.next
        { slice := [], staged := [],
          uppercase := some (CaseMappingIter.One 0x53) } =
      (some 0x53,
        { slice := [], staged := [], uppercase := some CaseMappingIter.Zero }) ∧
    (Full.Uppercase.next
        { slice := [], staged := [],
          uppercase := some CaseMappingIter.Zero }).1 = none := by
  decide

/-- C4: titlecasing U+FB03 (ﬃ, bytes `EF AC 83`) in Full mode yields
exactly the three bytes `Ffi`: the single 3-byte input codepoint is routed
through the titlecase table lookup, which expands it to the three
codepoints `F`, `f`, `i`. -/
theorem claim_C4 :
    (Full.Titlecase.withSlice [0xEF, 0xAC, 0x83]).collect =
      [0x46, 0x66, 0x69] ∧
    to_titlecase 0xFB03 = (0x46, 0x66, 0x69) := by
  decide

/-- C5: the full-Unicode titlecase iterator maps the first successfully
decoded valid codepoint with the titlecase mapping and every valid
codepoint decoded afterward with the lowercase mapping, while invalid byte
runs never flip the first-codepoint flag and are never mapped — its output
equals, for every slice, the spec-side positional policy
`titlecasePolicyGo` — and titlecasing `"aBC, 123, ABC"` in Full mode yields
exactly `"Abc, 123, abc"`. -/
theorem claim_C5 :
    (∀ s : List Nat,
      (Full.Titlecase.withSlice s).collect = titlecasePolicyGo true s) ∧
    (Full.Titlecase.withSlice
        [0x61, 0x42, 0x43, 0x2C, 0x20, 0x31, 0x32, 0x33, 0x2C, 0x20,
          0x41, 0x42, 0x43]).collect =
      [0x41, 0x62, 0x63, 0x2C, 0x20, 0x31, 0x32, 0x33, 0x2C, 0x20,
        0x61, 0x62, 0x63] := by
  constructor
  · intro s
    simpa [Full.Titlecase.withSlice] using
      Full.Titlecase.collect_policy_aux s.length s le_rfl true
  · decide

/-- C6: for every byte slice, the ASCII-mode lowercase, uppercase and
titlecase iterators yield exactly `len(s)` bytes under forward consumption
and under reverse consumption, and their `size_hint` at construction is
exactly `(len(s), Some (len(s)))`. -/
theorem claim_C6 (s : List Nat) :
    ((Ascii.Lowercase.withSlice s).collect.length = s.length ∧
      (Ascii.Lowercase.withSlice s).collectBack.length = s.length ∧
      (Ascii.Lowercase.withSlice s).sizeHint = (s.length, some s.length)) ∧
    ((Ascii.Uppercase.withSlice s).collect.length = s.length ∧
      (Ascii.Uppercase.withSlice s).collectBack.length = s.length ∧
      (Ascii.Uppercase.withSlice s).sizeHint = (s.length, some s.length)) ∧
    ((Ascii.Titlecase.withSlice s).collect.length = s.length ∧
      (Ascii.Titlecase.withSlice s).collectBack.length = s.length ∧
      (Ascii.Titlecase.withSlice s).sizeHint = (s.length, some s.length)) := by
  refine ⟨⟨?_, ?_, rfl⟩, ⟨?_, ?_, rfl⟩,
    ⟨Ascii.Titlecase.collect_length s true,
      Ascii.Titlecase.collectBack_length s true, rfl⟩⟩
  · rw [Ascii.Lowercase.collect_eq_map_ascii_lower]
    simp
  · rw [Ascii.Lowercase.collectBack_eq_map_ascii_lower]
    simp
  · rw [Ascii.Uppercase.collect_eq_map_ascii_upper]
    simp
  · rw [Ascii.Uppercase.collectBack_eq_map_ascii_upper]
    simp

/-- C7: the ASCII uppercase path is idempotent — re-uppercasing an already
ASCII-uppercased slice yields the same byte sequence. -/
theorem claim_C7 (s : List Nat) :
    (Ascii.Uppercase.withSlice
        ((Ascii.Uppercase.withSlice s).collect)).collect =
      (Ascii.Uppercase.withSlice s).collect := by
  rw [Ascii.Uppercase.collect_eq_map_ascii_upper, Ascii.Uppercase.collect_eq_map_ascii_upper]
  simp [List.map_map, Function.comp_def, toAsciiUppercase_idem]

/-- C8: requesting an unimplemented mode — `Turkic` or `Fold` for
lowercase, `Turkic` for uppercase or titlecase — makes the dispatch
function abort (modelled as `Except.error` with the panic message) at
construction, before any iterator exists or any byte is produced, while
every implemented mode (`Full`, `Lithuanian`, `Ascii`) constructs its
iterator successfully — so an unimplemented mode never silently falls back
to another mapping and can never fail mid-iteration. -/
theorem claim_C8 (s : List Nat) :
    lowercase s .Turkic =
      .error "lowercase Turkic mode is not yet implemented" ∧
    lowercase s .Fold =
      .error "lowercase case folding mode is not yet implemented" ∧
    uppercase s .Turkic =
      .error "uppercase Turkic mode is not yet implemented" ∧
    titlecase s .Turkic =
      .error "titlecase Turkic mode is not yet implemented" ∧
    (lowercase s .Full).isOk ∧ (lowercase s .Lithuanian).isOk ∧
    (lowercase s .Ascii).isOk ∧
    (uppercase s .Full).isOk ∧ (uppercase s .Lithuanian).isOk ∧
    (uppercase s .Ascii).isOk ∧
    (titlecase s .Full).isOk ∧ (titlecase s .Lithuanian).isOk ∧
    (titlecase s .Ascii).isOk :=
  ⟨rfl, rfl, rfl, rfl, rfl, rfl, rfl, rfl, rfl, rfl, rfl, rfl, rfl⟩

/-- C9: the full-Unicode case-mapping iterators are fused — whenever a
`next` call answers `None`, the successor state answers `None` again (for
lowercase, uppercase and titlecase alike) — and a `next` call answers
`None` exactly when the input cursor is empty and both the staged byte
range and the pending multi-codepoint expansion are exhausted. -/
theorem claim_C9 :
    (∀ (st st' : Full.Lowercase),
      st.next = (none, st') → st'.next = (none, st')) ∧
    (∀ (st st' : Full.Uppercase),
      st.next = (none, st') → st'.next = (none, st')) ∧
    (∀ (st st' : Full.Titlecase),
      st.next = (none, st') → st'.next = (none, st')) ∧
    (∀ st : Full.Lowercase, (st.next).1 = none ↔
      st.slice = [] ∧ st.staged = [] ∧ (caseNextOpt st.lowercase).1 = none) :=
  ⟨fun _ _ h => Full.Lowercase.fused_lower h,
    fun _ _ h => Full.Uppercase.fused_upper h,
    fun _ _ h => Full.Titlecase.fused_title h,
    Full.Lowercase.next_none_iff_exhausted⟩

/-- Witness for C9: a freshly constructed lowercase iterator over the
empty slice answers `None` and keeps answering `None`. -/
theorem claim_C9_witness :
    (Full.Lowercase.withSlice []).next = (none, Full.Lowercase.withSlice []) :=
  claim_C9.1 (Full.Lowercase.withSlice []) (Full.Lowercase.withSlice [])
    (by decide)

/-- C10: in the ASCII-mode titlecase iterator, `next_back` uppercases the
removed byte exactly when it is the only byte still remaining in the
cursor and lowercases it otherwise (never touching the `first` flag),
forward `next` uppercases only under the one-shot `first` flag, and
consequently interleaving the two directions over `"abc"` yields `A` from
`next`, then `c` and finally the uppercased `B` — a byte other than the
byte at index 0 — from `next_back`. -/
theorem claim_C10 :
    (∀ (s : List Nat) (first : Bool) (b : Nat) (st' : Ascii.Titlecase),
      Ascii.Titlecase.nextBack ⟨s, first⟩ = (some b, st') →
        (s.length = 1 → b = toAsciiUppercase (s.getLastD 0)) ∧
        (s.length ≠ 1 → b = toAsciiLowercase (s.getLastD 0)) ∧
        st' = ⟨s.dropLast, first⟩) ∧
    (∀ (x : Nat) (rest : List Nat),
      Ascii.Titlecase.next ⟨x :: rest, true⟩ =
        (some (toAsciiUppercase x), ⟨rest, false⟩) ∧
      Ascii.Titlecase.next ⟨x :: rest, false⟩ =
        (some (toAsciiLowercase x), ⟨rest, false⟩)) ∧
    ((Ascii.Titlecase.withSlice [0x61, 0x62, 0x63]).next =
        (some 0x41, ⟨[0x62, 0x63], false⟩) ∧
      Ascii.Titlecase.nextBack ⟨[0x62, 0x63], false⟩ =
        (some 0x63, ⟨[0x62], false⟩) ∧
      Ascii.Titlecase.nextBack ⟨[0x62], false⟩ =
        (some 0x42, ⟨[], false⟩)) := by
  refine ⟨?_, fun x rest => ⟨rfl, rfl⟩, by decide⟩
  intro s first b st' h
  unfold Ascii.Titlecase.nextBack at h
  cases hlast : s.getLast? with
  | none =>
    rw [hlast] at h
    simp at h
  | some x =>
    have hne : s ≠ [] := by
      intro hnil
      rw [hnil] at hlast
      simp at hlast
    have hlen : 1 ≤ s.length := by
      cases hq : s with
      | nil => exact absurd hq hne
      | cons a l => simp
    have hdl : s.dropLast.length = s.length - 1 := List.length_dropLast s
    have hgl : s.getLastD 0 = x := by
      rw [List.getLastD_eq_getLast?, hlast]
      rfl
    rw [hlast] at h
    simp only at h
    cases hemp : s.dropLast.isEmpty with
    | true =>
      rw [hemp] at h
      have h1 : s.length = 1 := by
        have := List.isEmpty_iff.mp hemp
        have : s.dropLast.length = 0 := by rw [this]; rfl
        omega
      simp only [if_true] at h
      simp only [Prod.mk.injEq, Option.some.injEq] at h
      obtain ⟨rfl, rfl⟩ := h
      exact ⟨fun _ => by rw [hgl], fun hc => absurd h1 hc, rfl⟩
    | false =>
      rw [hemp] at h
      have h1 : s.length ≠ 1 := by
        have hh : ¬ s.dropLast = [] := by
          intro hc
          rw [← List.isEmpty_iff] at hc
          rw [hemp] at hc
          exact Bool.false_ne_true hc
        have : s.dropLast.length ≠ 0 := by
          intro hc
          exact hh (List.length_eq_zero.mp hc)
        omega
      simp only [Bool.false_eq_true, if_false] at h
      simp only [Prod.mk.injEq, Option.some.injEq] at h
      obtain ⟨rfl, rfl⟩ := h
      exact ⟨fun hc => absurd hc h1, fun _ => by rw [hgl], rfl⟩

/-- Witness for C10: `next_back` over the single-byte slice `"a"`
uppercases the removed byte. -/
theorem claim_C10_witness :
    (([0x61].length = 1 → 0x41 = toAsciiUppercase ([0x61].getLastD 0)) ∧
      ([0x61].length ≠ 1 → 0x41 = toAsciiLowercase ([0x61].getLastD 0)) ∧
      (⟨[], true⟩ : Ascii.Titlecase) = ⟨[0x61].dropLast, true⟩) :=
  claim_C10.1 [0x61] true 0x41 ⟨[], true⟩ (by decide)

end Roe
